import Mathlib

/-!
Verification of the post-processing inventory reconciliation engine
(`pp_funcs.py`).  Strings are modelled as lists of characters; the
filesystem inputs of each function are modelled as the list of file
basenames the corresponding `glob` call inspects.  Python exceptions are
modelled by an explicit error type whose constructors follow the design
document's error taxonomy; each constructor corresponds to one concrete
raise site:
* `unsupportedDateFormat` : the `NotImplementedError` in `datestr2date`;
* `invalidDateValue`      : a `ValueError` raised by `datetime.strptime`;
* `indexError`            : an `IndexError` from list indexing while
  parsing filenames or period names;
* `insufficientSegmentEvidence` : the `ValueError` raised by
  `np.diff(enddates).min()` on an array with fewer than two entries;
* `zeroStepArange`        : the error raised by `np.arange` when the
  step is zero;
* `malformedPpPath`       : an `IndexError` inside
  `infer_properties_from_ppdir`;
* `notAPpDirectory`       : the `ValueError` raised in `pp_to_dataframe`.
-/

inductive PpError where
  | unsupportedDateFormat
  | invalidDateValue
  | indexError
  | insufficientSegmentEvidence
  | zeroStepArange
  | malformedPpPath
  | notAPpDirectory
  deriving DecidableEq, Repr

/-- Character strings are modelled as lists of characters. -/
abbrev Str := List Char

/-- Conversion of a Lean string literal into the list-of-characters model. -/
def lit (s : String) : Str := s.toList

instance {ε α : Type} [DecidableEq ε] [DecidableEq α] : DecidableEq (Except ε α) := fun a b =>
  match a, b with
  | .ok x, .ok y =>
    if h : x = y then .isTrue (by rw [h]) else .isFalse (fun hh => h (Except.ok.inj hh))
  | .ok _, .error _ => .isFalse (fun hh => Except.noConfusion hh)
  | .error _, .ok _ => .isFalse (fun hh => Except.noConfusion hh)
  | .error e, .error f =>
    if h : e = f then .isTrue (by rw [h]) else .isFalse (fun hh => h (Except.error.inj hh))

/-- Numeric value of a decimal digit character; `10` on any non-digit
(`charVal c < 10` is exactly the regex class of digits used by `strptime`). -/
def charVal (c : Char) : Nat :=
  if c = '0' then 0 else if c = '1' then 1 else if c = '2' then 2
  else if c = '3' then 3 else if c = '4' then 4 else if c = '5' then 5
  else if c = '6' then 6 else if c = '7' then 7 else if c = '8' then 8
  else if c = '9' then 9 else 10

/-- The decimal digit character for a digit value (used to model Python's
decimal rendering of numbers). -/
def digitToChar : Nat → Char
  | 0 => '0' | 1 => '1' | 2 => '2' | 3 => '3' | 4 => '4'
  | 5 => '5' | 6 => '6' | 7 => '7' | 8 => '8' | 9 => '9'
  | _ => '?'

/-- Value of a big-endian digit list. -/
def digitsValN (ds : List Nat) : Nat := ds.foldl (fun a d => a * 10 + d) 0

/-- Numeric value of a string of decimal digit characters. -/
def digitsVal (cs : Str) : Nat := digitsValN (cs.map charVal)

/-- Fixed-width big-endian base-10 digits of `n` (width `w`, leading zeros). -/
def natToDigits : Nat → Nat → List Nat
  | 0, _ => []
  | w + 1, n => natToDigits w (n / 10) ++ [n % 10]

/-- Fixed-width zero-padded decimal rendering of `n` as characters. -/
def fixedChars (w n : Nat) : Str := (natToDigits w n).map digitToChar

/-- A decoded model date, as produced by `datestr2date`
(`datetime.strptime` defaults: month and day `1`, hour `0`). -/
structure MDate where
  year : Nat
  month : Nat
  day : Nat
  hour : Nat
  deriving DecidableEq, Repr

/-- Gregorian leap-year rule used by `datetime`. -/
def isLeap (y : Nat) : Bool := (y % 4 == 0 && y % 100 != 0) || y % 400 == 0

/-- Number of days of month `m` in year `y` (the `datetime` constructor's
validity bound for the day field). -/
def daysInMonth (y m : Nat) : Nat :=
  if m = 2 then (if isLeap y then 29 else 28)
  else if m = 4 ∨ m = 6 ∨ m = 9 ∨ m = 11 then 30
  else 31

/-- `strptime` field parse: succeeds with the numeric value when every
character is a decimal digit, otherwise the `ValueError` of a failed match. -/
def parseDigits (cs : Str) : Except PpError Nat :=
  if cs.all (fun c => decide (charVal c < 10)) then .ok (digitsVal cs)
  else .error .invalidDateValue

/-- Model of `datestr2date` (pp_funcs.py lines 14-33): decode a model output
date string.  Length 4/6/8/10 select the formats `%Y`, `%Y%m`, `%Y%m%d`,
`%Y%m%d%H`; any other length raises `NotImplementedError`.  The range
checks mirror what `strptime` together with the `datetime` constructor
accept: year at least 1 (at most 9999 follows from the 4-digit width),
month 1-12, day 1-`daysInMonth`, hour 0-23. -/
def datestr2date (cs : Str) : Except PpError MDate :=
  if cs.length = 4 then do
    let y ← parseDigits cs
    if 1 ≤ y then .ok ⟨y, 1, 1, 0⟩ else .error .invalidDateValue
  else if cs.length = 6 then do
    let y ← parseDigits (cs.take 4)
    let m ← parseDigits ((cs.drop 4).take 2)
    if 1 ≤ y ∧ 1 ≤ m ∧ m ≤ 12 then .ok ⟨y, m, 1, 0⟩ else .error .invalidDateValue
  else if cs.length = 8 then do
    let y ← parseDigits (cs.take 4)
    let m ← parseDigits ((cs.drop 4).take 2)
    let d ← parseDigits ((cs.drop 6).take 2)
    if 1 ≤ y ∧ 1 ≤ m ∧ m ≤ 12 ∧ 1 ≤ d ∧ d ≤ daysInMonth y m then .ok ⟨y, m, d, 0⟩
    else .error .invalidDateValue
  else if cs.length = 10 then do
    let y ← parseDigits (cs.take 4)
    let m ← parseDigits ((cs.drop 4).take 2)
    let d ← parseDigits ((cs.drop 6).take 2)
    let h ← parseDigits (cs.drop 8)
    if 1 ≤ y ∧ 1 ≤ m ∧ m ≤ 12 ∧ 1 ≤ d ∧ d ≤ daysInMonth y m ∧ h ≤ 23 then .ok ⟨y, m, d, h⟩
    else .error .invalidDateValue
  else .error .unsupportedDateFormat

/-- Re-encoding of a decoded date into the fixed-width format of the given
original length (the inverse direction of the codec round-trip). -/
def encodeDate (w : Nat) (d : MDate) : Str :=
  if w = 4 then fixedChars 4 d.year
  else if w = 6 then fixedChars 4 d.year ++ fixedChars 2 d.month
  else if w = 8 then fixedChars 4 d.year ++ fixedChars 2 d.month ++ fixedChars 2 d.day
  else fixedChars 4 d.year ++ fixedChars 2 d.month ++ fixedChars 2 d.day ++ fixedChars 2 d.hour

example : datestr2date (lit "1999") = .ok ⟨1999, 1, 1, 0⟩ := by decide
example : datestr2date (lit "2004022915") = .ok ⟨2004, 2, 29, 15⟩ := by decide
example : datestr2date (lit "20050229") = .error .invalidDateValue := by decide
example : datestr2date (lit "20001") = .error .unsupportedDateFormat := by decide
example : encodeDate 10 ⟨2004, 2, 29, 15⟩ = lit "2004022915" := by decide

theorem digitToChar_charVal (c : Char) (h : charVal c < 10) :
    digitToChar (charVal c) = c := by
  by_cases h0 : c = '0'
  · subst h0; decide
  by_cases h1 : c = '1'
  · subst h1; decide
  by_cases h2 : c = '2'
  · subst h2; decide
  by_cases h3 : c = '3'
  · subst h3; decide
  by_cases h4 : c = '4'
  · subst h4; decide
  by_cases h5 : c = '5'
  · subst h5; decide
  by_cases h6 : c = '6'
  · subst h6; decide
  by_cases h7 : c = '7'
  · subst h7; decide
  by_cases h8 : c = '8'
  · subst h8; decide
  by_cases h9 : c = '9'
  · subst h9; decide
  simp [charVal, h0, h1, h2, h3, h4, h5, h6, h7, h8, h9] at h

theorem digitsValN_append_singleton (xs : List Nat) (d : Nat) :
    digitsValN (xs ++ [d]) = digitsValN xs * 10 + d := by
  simp [digitsValN, List.foldl_append]

theorem natToDigits_digitsValN (ds : List Nat) (h : ∀ d ∈ ds, d < 10) :
    natToDigits ds.length (digitsValN ds) = ds := by
  induction ds using List.reverseRecOn with
  | nil => rfl
  | append_singleton xs d ih =>
    have hd : d < 10 := h d (by simp)
    have hxs : ∀ x ∈ xs, x < 10 := fun x hx => h x (by simp [hx])
    rw [List.length_append, digitsValN_append_singleton]
    show natToDigits (xs.length + 1) _ = _
    rw [natToDigits]
    have h1 : (digitsValN xs * 10 + d) / 10 = digitsValN xs := by omega
    have h2 : (digitsValN xs * 10 + d) % 10 = d := by omega
    rw [h1, h2, ih hxs]

theorem map_digitToChar_charVal (cs : Str) (h : ∀ c ∈ cs, charVal c < 10) :
    (cs.map charVal).map digitToChar = cs := by
  induction cs with
  | nil => rfl
  | cons c rest ih =>
    simp only [List.map_cons]
    rw [digitToChar_charVal c (h c (by simp)), ih (fun x hx => h x (by simp [hx]))]

theorem fixedChars_digitsVal (cs : Str) (h : ∀ c ∈ cs, charVal c < 10) :
    fixedChars cs.length (digitsVal cs) = cs := by
  unfold fixedChars digitsVal
  have hlen : (cs.map charVal).length = cs.length := List.length_map cs charVal
  rw [← hlen, natToDigits_digitsValN _ (by simpa using h)]
  exact map_digitToChar_charVal cs h

theorem parseDigits_ok {cs : Str} {v : Nat} (h : parseDigits cs = .ok v) :
    (∀ c ∈ cs, charVal c < 10) ∧ v = digitsVal cs := by
  unfold parseDigits at h
  split at h
  · next hall =>
    refine ⟨fun c hc => ?_, by cases h; rfl⟩
    have := List.all_eq_true.mp hall c hc
    simpa using this
  · cases h

/-- Claim C6: for every date string whose length is not 4, 6, 8, or 10
(for example length 5 or 12), `datestr2date` fails with
`UnsupportedDateFormat` (the `NotImplementedError` branch). -/
theorem c6_decode_rejects_unsupported_lengths (cs : Str) (h4 : cs.length ≠ 4)
    (h6 : cs.length ≠ 6) (h8 : cs.length ≠ 8) (h10 : cs.length ≠ 10) :
    datestr2date cs = .error .unsupportedDateFormat := by
  unfold datestr2date
  rw [if_neg h4, if_neg h6, if_neg h8, if_neg h10]

/-- Witness for C6 at the concrete lengths 5 and 12. -/
theorem c6_decode_rejects_unsupported_lengths_witness :
    datestr2date (lit "20241") = .error .unsupportedDateFormat ∧
    datestr2date (lit "202401010203") = .error .unsupportedDateFormat :=
  ⟨c6_decode_rejects_unsupported_lengths (lit "20241")
      (by decide) (by decide) (by decide) (by decide),
   c6_decode_rejects_unsupported_lengths (lit "202401010203")
      (by decide) (by decide) (by decide) (by decide)⟩

/-- Claim C7: on any all-digit date string of a supported length denoting a
valid calendar date (i.e. whenever `datestr2date` succeeds), the decoder
recovers the year, month, day and hour encoded in the corresponding
fixed-width slices of the string (month 1, day 1 and hour 0 as canonical
defaults when absent), and re-encoding the decoded date in the same
fixed-width format yields the original string. -/
theorem c7_decode_correct_and_roundtrip (cs : Str) (d : MDate)
    (h : datestr2date cs = .ok d) :
    d.year = digitsVal (cs.take 4) ∧
    d.month = (if 6 ≤ cs.length then digitsVal ((cs.drop 4).take 2) else 1) ∧
    d.day = (if 8 ≤ cs.length then digitsVal ((cs.drop 6).take 2) else 1) ∧
    d.hour = (if cs.length = 10 then digitsVal (cs.drop 8) else 0) ∧
    encodeDate cs.length d = cs := by
  unfold datestr2date at h
  by_cases l4 : cs.length = 4
  · rw [if_pos l4] at h
    cases hy : parseDigits cs with
    | error e => rw [hy] at h; simp only [bind, Except.bind] at h; exact Except.noConfusion h
    | ok y =>
      rw [hy] at h
      simp only [bind, Except.bind] at h
      split at h
      · injection h with h'
        subst h'
        obtain ⟨hdy, hyv⟩ := parseDigits_ok hy
        have htake : cs.take 4 = cs := List.take_of_length_le (by omega)
        refine ⟨by rw [htake]; exact hyv, by rw [l4]; norm_num,
          by rw [l4]; norm_num, by rw [l4]; norm_num, ?_⟩
        rw [l4]
        show fixedChars 4 y = cs
        rw [hyv, ← l4, fixedChars_digitsVal cs hdy]
      · exact Except.noConfusion h
  · rw [if_neg l4] at h
    by_cases l6 : cs.length = 6
    · rw [if_pos l6] at h
      cases hy : parseDigits (cs.take 4) with
      | error e => rw [hy] at h; simp only [bind, Except.bind] at h; exact Except.noConfusion h
      | ok y =>
        rw [hy] at h
        simp only [bind, Except.bind] at h
        cases hm : parseDigits ((cs.drop 4).take 2) with
        | error e => rw [hm] at h; simp only [bind, Except.bind] at h; exact Except.noConfusion h
        | ok m =>
          rw [hm] at h
          simp only [bind, Except.bind] at h
          split at h
          · injection h with h'
            subst h'
            obtain ⟨hdy, hyv⟩ := parseDigits_ok hy
            obtain ⟨hdm, hmv⟩ := parseDigits_ok hm
            have lt4 : (cs.take 4).length = 4 := by simp [List.length_take, l6]
            have ld4 : (cs.drop 4).length = 2 := by simp [List.length_drop, l6]
            have t2d4 : (cs.drop 4).take 2 = cs.drop 4 := List.take_of_length_le (by omega)
            have lm2 : ((cs.drop 4).take 2).length = 2 := by rw [t2d4]; exact ld4
            refine ⟨hyv, by rw [l6]; norm_num; exact hmv, by rw [l6]; norm_num,
              by rw [l6]; norm_num, ?_⟩
            rw [l6]
            show fixedChars 4 y ++ fixedChars 2 m = cs
            have e1 : fixedChars 4 (digitsVal (cs.take 4)) = cs.take 4 := by
              have e := fixedChars_digitsVal _ hdy
              rwa [lt4] at e
            have e2 : fixedChars 2 (digitsVal ((cs.drop 4).take 2)) = (cs.drop 4).take 2 := by
              have e := fixedChars_digitsVal _ hdm
              rwa [lm2] at e
            rw [hyv, hmv, e1, e2, t2d4, List.take_append_drop]
          · exact Except.noConfusion h
    · rw [if_neg l6] at h
      by_cases l8 : cs.length = 8
      · rw [if_pos l8] at h
        cases hy : parseDigits (cs.take 4) with
        | error e => rw [hy] at h; simp only [bind, Except.bind] at h; exact Except.noConfusion h
        | ok y =>
          rw [hy] at h
          simp only [bind, Except.bind] at h
          cases hm : parseDigits ((cs.drop 4).take 2) with
          | error e =>
            rw [hm] at h; simp only [bind, Except.bind] at h; exact Except.noConfusion h
          | ok m =>
            rw [hm] at h
            simp only [bind, Except.bind] at h
            cases hd : parseDigits ((cs.drop 6).take 2) with
            | error e =>
              rw [hd] at h; simp only [bind, Except.bind] at h; exact Except.noConfusion h
            | ok dd =>
              rw [hd] at h
              simp only [bind, Except.bind] at h
              split at h
              · injection h with h'
                subst h'
                obtain ⟨hdy, hyv⟩ := parseDigits_ok hy
                obtain ⟨hdm, hmv⟩ := parseDigits_ok hm
                obtain ⟨hdd, hdv⟩ := parseDigits_ok hd
                have lt4 : (cs.take 4).length = 4 := by simp [List.length_take, l8]
                have ld4 : (cs.drop 4).length = 4 := by simp [List.length_drop, l8]
                have lm2 : ((cs.drop 4).take 2).length = 2 := by simp [List.length_take, ld4]
                have ld6 : (cs.drop 6).length = 2 := by simp [List.length_drop, l8]
                have t2d6 : (cs.drop 6).take 2 = cs.drop 6 := List.take_of_length_le (by omega)
                have ldd2 : ((cs.drop 6).take 2).length = 2 := by rw [t2d6]; exact ld6
                refine ⟨hyv, by rw [l8]; norm_num; exact hmv,
                  by rw [l8]; norm_num; exact hdv, by rw [l8]; norm_num, ?_⟩
                rw [l8]
                show fixedChars 4 y ++ fixedChars 2 m ++ fixedChars 2 dd = cs
                have e1 : fixedChars 4 (digitsVal (cs.take 4)) = cs.take 4 := by
                  have e := fixedChars_digitsVal _ hdy
                  rwa [lt4] at e
                have e2 : fixedChars 2 (digitsVal ((cs.drop 4).take 2)) =
                    (cs.drop 4).take 2 := by
                  have e := fixedChars_digitsVal _ hdm
                  rwa [lm2] at e
                have e3 : fixedChars 2 (digitsVal ((cs.drop 6).take 2)) =
                    (cs.drop 6).take 2 := by
                  have e := fixedChars_digitsVal _ hdd
                  rwa [ldd2] at e
                rw [hyv, hmv, hdv, e1, e2, e3, t2d6]
                have hsplit : (cs.drop 4).take 2 ++ cs.drop 6 = cs.drop 4 := by
                  have : (cs.drop 4).drop 2 = cs.drop 6 := by
                    rw [List.drop_drop]
                  rw [← this, List.take_append_drop]
                rw [List.append_assoc, hsplit, List.take_append_drop]
              · exact Except.noConfusion h
      · rw [if_neg l8] at h
        by_cases l10 : cs.length = 10
        · rw [if_pos l10] at h
          cases hy : parseDigits (cs.take 4) with
          | error e =>
            rw [hy] at h; simp only [bind, Except.bind] at h; exact Except.noConfusion h
          | ok y =>
            rw [hy] at h
            simp only [bind, Except.bind] at h
            cases hm : parseDigits ((cs.drop 4).take 2) with
            | error e =>
              rw [hm] at h; simp only [bind, Except.bind] at h; exact Except.noConfusion h
            | ok m =>
              rw [hm] at h
              simp only [bind, Except.bind] at h
              cases hd : parseDigits ((cs.drop 6).take 2) with
              | error e =>
                rw [hd] at h; simp only [bind, Except.bind] at h; exact Except.noConfusion h
              | ok dd =>
                rw [hd] at h
                simp only [bind, Except.bind] at h
                cases hh : parseDigits (cs.drop 8) with
                | error e =>
                  rw [hh] at h; simp only [bind, Except.bind] at h; exact Except.noConfusion h
                | ok hr =>
                  rw [hh] at h
                  simp only [bind, Except.bind] at h
                  split at h
                  · injection h with h'
                    subst h'
                    obtain ⟨hdy, hyv⟩ := parseDigits_ok hy
                    obtain ⟨hdm, hmv⟩ := parseDigits_ok hm
                    obtain ⟨hdd, hdv⟩ := parseDigits_ok hd
                    obtain ⟨hdh, hhv⟩ := parseDigits_ok hh
                    have lt4 : (cs.take 4).length = 4 := by simp [List.length_take, l10]
                    have ld4 : (cs.drop 4).length = 6 := by simp [List.length_drop, l10]
                    have lm2 : ((cs.drop 4).take 2).length = 2 := by
                      simp [List.length_take, ld4]
                    have ld6 : (cs.drop 6).length = 4 := by simp [List.length_drop, l10]
                    have ldd2 : ((cs.drop 6).take 2).length = 2 := by
                      simp [List.length_take, ld6]
                    have ld8 : (cs.drop 8).length = 2 := by simp [List.length_drop, l10]
                    refine ⟨hyv, by rw [l10]; norm_num; exact hmv,
                      by rw [l10]; norm_num; exact hdv, by rw [l10]; norm_num; exact hhv, ?_⟩
                    rw [l10]
                    show fixedChars 4 y ++ fixedChars 2 m ++ fixedChars 2 dd ++
                      fixedChars 2 hr = cs
                    have e1 : fixedChars 4 (digitsVal (cs.take 4)) = cs.take 4 := by
                      have e := fixedChars_digitsVal _ hdy
                      rwa [lt4] at e
                    have e2 : fixedChars 2 (digitsVal ((cs.drop 4).take 2)) =
                        (cs.drop 4).take 2 := by
                      have e := fixedChars_digitsVal _ hdm
                      rwa [lm2] at e
                    have e3 : fixedChars 2 (digitsVal ((cs.drop 6).take 2)) =
                        (cs.drop 6).take 2 := by
                      have e := fixedChars_digitsVal _ hdd
                      rwa [ldd2] at e
                    have e4 : fixedChars 2 (digitsVal (cs.drop 8)) = cs.drop 8 := by
                      have e := fixedChars_digitsVal _ hdh
                      rwa [ld8] at e
                    rw [hyv, hmv, hdv, hhv, e1, e2, e3, e4]
                    have h68 : (cs.drop 6).take 2 ++ cs.drop 8 = cs.drop 6 := by
                      have : (cs.drop 6).drop 2 = cs.drop 8 := by rw [List.drop_drop]
                      rw [← this, List.take_append_drop]
                    have h46 : (cs.drop 4).take 2 ++ cs.drop 6 = cs.drop 4 := by
                      have : (cs.drop 4).drop 2 = cs.drop 6 := by rw [List.drop_drop]
                      rw [← this, List.take_append_drop]
                    rw [List.append_assoc, List.append_assoc, h68, h46,
                      List.take_append_drop]
                  · exact Except.noConfusion h
        · rw [if_neg l10] at h
          exact Except.noConfusion h

/-- Witness for C7 on the concrete 10-character string for
2004-02-29 hour 15 (a leap-day date). -/
theorem c7_decode_correct_and_roundtrip_witness :
    (⟨2004, 2, 29, 15⟩ : MDate).year = digitsVal ((lit "2004022915").take 4) ∧
    (⟨2004, 2, 29, 15⟩ : MDate).month =
      (if 6 ≤ (lit "2004022915").length then digitsVal (((lit "2004022915").drop 4).take 2)
       else 1) ∧
    (⟨2004, 2, 29, 15⟩ : MDate).day =
      (if 8 ≤ (lit "2004022915").length then digitsVal (((lit "2004022915").drop 6).take 2)
       else 1) ∧
    (⟨2004, 2, 29, 15⟩ : MDate).hour =
      (if (lit "2004022915").length = 10 then digitsVal ((lit "2004022915").drop 8) else 0) ∧
    encodeDate (lit "2004022915").length ⟨2004, 2, 29, 15⟩ = lit "2004022915" :=
  c7_decode_correct_and_roundtrip (lit "2004022915") ⟨2004, 2, 29, 15⟩ (by decide)

/-- Python `str.split()` after replacing `sep` by a space: split on the
separator and drop empty pieces (used for the dot-, hyphen-, slash- and
underscore-splitting idiom `s.replace(sep, \x22 \x22).split()`). -/
def wordsBy (sep : Char) (cs : Str) : List Str :=
  ((cs.map (fun c => if c = sep then ' ' else c)).splitOn ' ').filter (fun w => w ≠ [])

/-- Lift an optional list-indexing result, modelling Python `IndexError`. -/
def liftIdx {α : Type} : Option α → Except PpError α
  | some a => .ok a
  | none => .error .indexError

/-- Dot-separated field number `i` of a filename
(`f.replace(".", " ").split()[i]`). -/
def dotField (f : Str) (i : Nat) : Except PpError Str := liftIdx (wordsBy '.' f)[i]?

/-- `glob`-match for the pattern star-`.nc`: the name ends in `.nc` and, per
the glob hidden-file rule, does not start with a dot. -/
def globNc (f : Str) : Bool :=
  match f with
  | [] => false
  | c :: _ => decide (c ≠ '.') && (lit ".nc").isSuffixOf f

/-- Python `str.find` helper: the least index at or after the current one
where `pat` occurs in the remaining characters. -/
def strFindAux (pat : Str) : Str → Nat → Option Nat
  | [], i => if pat.isPrefixOf [] then some i else none
  | c :: rest, i => if pat.isPrefixOf (c :: rest) then some i else strFindAux pat rest (i + 1)

/-- Python `str.find`: least index of an occurrence of `pat` in `cs`
(`none` models the return value `-1`). -/
def strFind (pat cs : Str) : Option Nat := strFindAux pat cs 0

/-- Python substring containment (`s.find(pat) != -1`, `pat in s`). -/
def strContains (pat cs : Str) : Bool := (strFind pat cs).isSome

/-- `glob`-match for the pattern star-`date`-star-`.nc`: the name ends in
`.nc`, does not start with a dot, and contains `date` before the final
`.nc`. -/
def globDateNc (date f : Str) : Bool :=
  match f with
  | [] => false
  | c :: _ => decide (c ≠ '.') && (lit ".nc").isSuffixOf f &&
      strContains date (f.take (f.length - 3))

/-- First-occurrence deduplication, modelling `list(set(...))` (whose
iteration order CPython leaves unspecified; every later use is
order-insensitive on the success paths). -/
def dedupAux : List Str → List Str → List Str
  | [], _ => []
  | x :: xs, seen => if x ∈ seen then dedupAux xs seen else x :: dedupAux xs (x :: seen)

def dedupStr (l : List Str) : List Str := dedupAux l []

/-- End-year of one segment token (pp_funcs.py lines 56-58): split the token
on hyphens, decode the begin date (its result is unused but its failures
propagate), decode the end date, and take its calendar year. -/
def segmentEndYear (date : Str) : Except PpError Nat := do
  let b ← liftIdx (wordsBy '-' date)[0]?
  let _ ← datestr2date b
  let e ← liftIdx (wordsBy '-' date)[1]?
  let de ← datestr2date e
  pure de.year

/-- The observed evidence of one directory (pp_funcs.py lines 48-59): for
each distinct date token of the `.nc` files (second dot-field), the decoded
end-year paired with the number of files whose name matches the
star-`date`-star-`.nc` glob.  The third dot-field (`fields`, line 50) is
demanded of every file first, exactly as the source's list comprehension
does, because its `IndexError` precedes the date parsing. -/
def observedEntriesE (dirFiles : List Str) : Except PpError (List (Nat × Nat)) := do
  let allfiles := dirFiles.filter globNc
  let _fields ← allfiles.mapM (fun f => dotField f 2)
  let dateTokens ← allfiles.mapM (fun f => dotField f 1)
  let dates := dedupStr dateTokens
  dates.mapM (fun date => do
    let n := (dirFiles.filter (globDateNc date)).length
    let y ← segmentEndYear date
    pure (y, n))

/-- The `indexes` list of observed end-years, one entry per distinct date
token (so a year repeats when two distinct tokens share it). -/
def observedEndYearsE (dirFiles : List Str) : Except PpError (List Nat) :=
  (observedEntriesE dirFiles).map (fun es => es.map (fun e => e.1))

/-- `np.diff` on a (sorted) array of naturals. -/
def npDiff : List Nat → List Nat
  | a :: b :: rest => (b - a) :: npDiff (b :: rest)
  | _ => []

/-- Ascending sort, modelling `np.sort` / `Series.sort_index`. -/
def sortNat (l : List Nat) : List Nat := l.insertionSort (· ≤ ·)

/-- Minimum of a list of naturals (callers guarantee nonemptiness, matching
`ndarray.min()` which raises on an empty array). -/
def minList : List Nat → Nat
  | [] => 0
  | x :: xs => xs.foldl min x

/-- The inferred cadence `np.diff(np.sort(indexes)).min()` (pp_funcs.py
lines 61-62); an empty difference array (fewer than two observed tokens)
raises, which the design document calls `InsufficientSegmentEvidence`. -/
def segmentDurationE (dirFiles : List Str) : Except PpError Nat := do
  let ys ← observedEndYearsE dirFiles
  match npDiff (sortNat ys) with
  | [] => .error .insufficientSegmentEvidence
  | d :: ds => pure (ds.foldl min d)

/-- Python `dict` update (insertion order kept, existing key overwritten). -/
def dictInsert (k : Nat) (v : Option Nat) : List (Nat × Option Nat) → List (Nat × Option Nat)
  | [] => [(k, v)]
  | (k', v') :: r => if k' = k then (k, v) :: r else (k', v') :: dictInsert k v r

def dictLookup (k : Nat) : List (Nat × Option Nat) → Option (Option Nat)
  | [] => none
  | (k', v) :: r => if k' = k then some v else dictLookup k r

/-- Last element with a default (`enddates[-1]`; callers guarantee
nonemptiness). -/
def lastD : List Nat → Nat → Nat
  | [], d => d
  | [x], _ => x
  | _ :: y :: r, d => lastD (y :: r) d

/-- `np.arange start stop step` for a positive step: the
`ceil((stop-start)/step)` evenly spaced values from `start`. -/
def arange (start stop step : Nat) : List Nat :=
  (List.range ((stop - start + (step - 1)) / step)).map (fun i => start + i * step)

/-- Model of `create_pp_series` (pp_funcs.py lines 36-71): the year to
file-count series of one directory, `none` standing for the `NaN` sentinel.
The directory is given as its list of file basenames; `startyear`/`endyear`
are the optional overrides.  Failure models the Python exceptions reached
in source order; the `step = 0` guard stands for the error `np.arange`
raises when `segment_duration` is zero. -/
def create_pp_series (dirFiles : List Str) (startyear endyear : Option Nat) :
    Except PpError (List (Nat × Option Nat)) := do
  let entries ← observedEntriesE dirFiles
  let segd ← segmentDurationE dirFiles
  let indexes := entries.map (fun e => e.1)
  let nfiles := entries.foldl (fun m e => dictInsert e.1 (some e.2) m) []
  let enddates := sortNat indexes
  let start := startyear.getD (enddates.headD 0)
  let stop := endyear.getD (lastD enddates 0)
  if segd = 0 then .error .zeroStepArange
  else
    let acc := (arange start (stop + segd) segd).foldl
      (fun (st : List Nat × List (Nat × Option Nat)) y =>
        if y ∈ enddates then st else (st.1 ++ [y], dictInsert y none st.2))
      (indexes, nfiles)
    pure (((acc.1.map (fun y => (y, (dictLookup y acc.2).getD none))).insertionSort
      (fun p q => p.1 ≤ q.1)))

example : observedEndYearsE [lit "ocean.20100101-20101231.thetao.nc",
    lit "ocean.20300101-20301231.thetao.nc", lit "ocean.20400101-20401231.thetao.nc"] =
    .ok [2010, 2030, 2040] := by decide
example : segmentDurationE [lit "ocean.20100101-20101231.thetao.nc",
    lit "ocean.20300101-20301231.thetao.nc", lit "ocean.20400101-20401231.thetao.nc"] =
    .ok 10 := by decide
example : create_pp_series [lit "ocean.20100101-20101231.thetao.nc",
    lit "ocean.20300101-20301231.thetao.nc", lit "ocean.20400101-20401231.thetao.nc"]
    none none =
    .ok [(2010, some 1), (2020, none), (2030, some 1), (2040, some 1)] := by decide

/-- The C2 scenario directory: one file per end-year 2000-2009 except 2005
and 2006, with a second file (a second field of the same segment) for the
year 2000 so that a count other than 1 is exercised. -/
def c2Files : List Str :=
  [lit "ocean.20000101-20001231.thetao.nc",
   lit "ocean.20000101-20001231.so.nc",
   lit "ocean.20010101-20011231.thetao.nc",
   lit "ocean.20020101-20021231.thetao.nc",
   lit "ocean.20030101-20031231.thetao.nc",
   lit "ocean.20040101-20041231.thetao.nc",
   lit "ocean.20070101-20071231.thetao.nc",
   lit "ocean.20080101-20081231.thetao.nc",
   lit "ocean.20090101-20091231.thetao.nc"]

/-- Claim C2: on a directory with files for end-years 2000-2009 except 2005
and 2006 (inferred cadence 1), `create_pp_series` with no overrides returns
exactly the ten years 2000-2009 ascending, the sentinel (`none`) at 2005
and 2006, and the observed file count everywhere else. -/
theorem c2_series_fills_gaps_with_sentinel :
    create_pp_series c2Files none none =
      .ok [(2000, some 2), (2001, some 1), (2002, some 1), (2003, some 1), (2004, some 1),
        (2005, none), (2006, none), (2007, some 1), (2008, some 1), (2009, some 1)] := by
  decide

theorem foldl_min_le_init (xs : List Nat) (a : Nat) : xs.foldl min a ≤ a := by
  induction xs generalizing a with
  | nil => simp
  | cons x xs ih =>
    exact le_trans (ih (min a x)) (min_le_left a x)

theorem foldl_min_le_mem (xs : List Nat) (a x : Nat) (hx : x ∈ xs) : xs.foldl min a ≤ x := by
  induction xs generalizing a with
  | nil => cases hx
  | cons b xs ih =>
    rcases List.mem_cons.mp hx with h | h
    · subst h
      exact le_trans (foldl_min_le_init xs (min a x)) (min_le_right a x)
    · exact ih (min a b) h

theorem foldl_min_mem (xs : List Nat) (a : Nat) : xs.foldl min a ∈ a :: xs := by
  induction xs generalizing a with
  | nil => simp
  | cons b xs ih =>
    have hm := ih (min a b)
    rcases List.mem_cons.mp hm with h | h
    · rcases min_choice a b with hc | hc
      · rw [List.foldl_cons, h, hc]; exact List.mem_cons_self _ _
      · rw [List.foldl_cons, h, hc]
        exact List.mem_cons_of_mem _ (List.mem_cons_self _ _)
    · exact List.mem_cons_of_mem _ (List.mem_cons_of_mem _ h)

theorem minList_le_of_mem {l : List Nat} {x : Nat} (hx : x ∈ l) : minList l ≤ x := by
  cases l with
  | nil => cases hx
  | cons a xs =>
    rcases List.mem_cons.mp hx with h | h
    · subst h; exact foldl_min_le_init xs x
    · exact foldl_min_le_mem xs a x h

theorem minList_mem {l : List Nat} (h : l ≠ []) : minList l ∈ l := by
  cases l with
  | nil => exact absurd rfl h
  | cons a xs => exact foldl_min_mem xs a

theorem minList_eq {l : List Nat} {x : Nat} (hx : x ∈ l) (hle : ∀ y ∈ l, x ≤ y) :
    minList l = x :=
  le_antisymm (minList_le_of_mem hx)
    (hle _ (minList_mem (by intro h; rw [h] at hx; cases hx)))

theorem length_npDiff (l : List Nat) : (npDiff l).length = l.length - 1 := by
  induction l with
  | nil => rfl
  | cons a rest ih =>
    cases rest with
    | nil => rfl
    | cons b t =>
      show ((b - a) :: npDiff (b :: t)).length = (a :: b :: t).length - 1
      simp only [List.length_cons, ih]
      omega

theorem npDiff_eq_nil {l : List Nat} (h : l.length ≤ 1) : npDiff l = [] := by
  cases l with
  | nil => rfl
  | cons a rest =>
    cases rest with
    | nil => rfl
    | cons b t => simp at h

theorem mem_npDiff_exists_pair {l : List Nat} (hs : l.Pairwise (· < ·)) {d : Nat}
    (hd : d ∈ npDiff l) :
    ∃ a b, a ∈ l ∧ b ∈ l ∧ a < b ∧ d = b - a := by
  induction l with
  | nil => cases hd
  | cons a rest ih =>
    obtain ⟨har, hrest⟩ := List.pairwise_cons.mp hs
    cases rest with
    | nil => cases hd
    | cons b t =>
      rcases List.mem_cons.mp hd with h | h
      · exact ⟨a, b, List.mem_cons_self _ _,
          List.mem_cons_of_mem _ (List.mem_cons_self _ _), har b (List.mem_cons_self _ _), h⟩
      · obtain ⟨x, y, hx, hy, hxy, hde⟩ := ih hrest h
        exact ⟨x, y, List.mem_cons_of_mem _ hx, List.mem_cons_of_mem _ hy, hxy, hde⟩

theorem exists_npDiff_le {l : List Nat} (hs : l.Pairwise (· ≤ ·)) {a b : Nat}
    (ha : a ∈ l) (hb : b ∈ l) (hab : a < b) :
    ∃ d ∈ npDiff l, d ≤ b - a := by
  induction l with
  | nil => cases ha
  | cons c rest ih =>
    obtain ⟨hcr, hrest⟩ := List.pairwise_cons.mp hs
    rcases List.mem_cons.mp ha with hac | har
    · subst hac
      have hbr : b ∈ rest := by
        rcases List.mem_cons.mp hb with h | h
        · omega
        · exact h
      cases rest with
      | nil => cases hbr
      | cons h2 t =>
        have hh2b : h2 ≤ b := by
          rcases List.mem_cons.mp hbr with h | h
          · omega
          · exact (List.pairwise_cons.mp hrest).1 b h
        exact ⟨h2 - a, List.mem_cons_self _ _, by omega⟩
    · have hbr : b ∈ rest := by
        rcases List.mem_cons.mp hb with h | h
        · have := hcr a har
          omega
        · exact h
      obtain ⟨d, hd, hle⟩ := ih hrest har hbr
      cases rest with
      | nil => cases har
      | cons h2 t => exact ⟨d, List.mem_cons_of_mem _ hd, hle⟩

/-- The design document's notion for the inferred cadence: the positive
pairwise differences between observed end-years ("minimum positive
difference between any two distinct observed end-years"). -/
def specPosDiffs (ys : List Nat) : List Nat :=
  (ys.product ys).filterMap (fun p => if p.1 < p.2 then some (p.2 - p.1) else none)

/-- The design document's inferred cadence: the minimum positive pairwise
difference of the observed end-years (`none` when no positive difference
exists). -/
def specMinPositiveDifference (ys : List Nat) : Option Nat :=
  match specPosDiffs ys with
  | [] => none
  | x :: xs => some (xs.foldl min x)

theorem mem_specPosDiffs {ys : List Nat} {x : Nat} :
    x ∈ specPosDiffs ys ↔ ∃ a b, a ∈ ys ∧ b ∈ ys ∧ a < b ∧ x = b - a := by
  unfold specPosDiffs
  rw [List.mem_filterMap]
  constructor
  · rintro ⟨⟨a, b⟩, hab, hx⟩
    rw [List.pair_mem_product] at hab
    by_cases h : a < b
    · rw [if_pos h] at hx
      exact ⟨a, b, hab.1, hab.2, h, (Option.some.inj hx).symm⟩
    · rw [if_neg h] at hx; cases hx
  · rintro ⟨a, b, ha, hb, hab, hx⟩
    exact ⟨(a, b), List.pair_mem_product.mpr ⟨ha, hb⟩, by rw [if_pos hab, hx]⟩

/-- On a strictly increasing list, the code's cadence (minimum adjacent
difference) equals the specification's cadence (minimum positive pairwise
difference). -/
theorem specMin_eq_minList_npDiff {l : List Nat} (hs : l.Pairwise (· < ·))
    (hl : 2 ≤ l.length) :
    specMinPositiveDifference l = some (minList (npDiff l)) := by
  have hne : npDiff l ≠ [] := by
    intro h
    have := length_npDiff l
    rw [h] at this
    simp at this
    omega
  obtain ⟨a, b, ha, hb, hab, hA⟩ := mem_npDiff_exists_pair hs (minList_mem hne)
  have hAspec : minList (npDiff l) ∈ specPosDiffs l :=
    mem_specPosDiffs.mpr ⟨a, b, ha, hb, hab, hA⟩
  have hAle : ∀ x ∈ specPosDiffs l, minList (npDiff l) ≤ x := by
    intro x hx
    obtain ⟨c, e, hc, he, hce, hxe⟩ := mem_specPosDiffs.mp hx
    obtain ⟨d0, hd0, hle⟩ := exists_npDiff_le (hs.imp le_of_lt) hc he hce
    rw [hxe]
    exact le_trans (minList_le_of_mem hd0) hle
  unfold specMinPositiveDifference
  cases hsp : specPosDiffs l with
  | nil => rw [hsp] at hAspec; cases hAspec
  | cons x xs =>
    have heq : minList (x :: xs) = minList (npDiff l) :=
      minList_eq (hsp ▸ hAspec) (fun y hy => hAle y (hsp ▸ hy))
    rw [← heq]
    rfl

theorem sortNat_perm (l : List Nat) : List.Perm (sortNat l) l := List.perm_insertionSort _ l

theorem sortNat_pairwise_le (l : List Nat) : (sortNat l).Pairwise (· ≤ ·) :=
  List.sorted_insertionSort _ l

theorem sortNat_pairwise_lt {l : List Nat} (hnd : l.Nodup) :
    (sortNat l).Pairwise (· < ·) := by
  have hnd' : (sortNat l).Nodup := ((sortNat_perm l).nodup_iff).mpr hnd
  exact ((sortNat_pairwise_le l).and hnd').imp (fun h => lt_of_le_of_ne h.1 h.2)

theorem zero_mem_npDiff_of_not_nodup {l : List Nat} (hs : l.Pairwise (· ≤ ·))
    (h : ¬ l.Nodup) : 0 ∈ npDiff l := by
  induction l with
  | nil => exact absurd List.nodup_nil h
  | cons a rest ih =>
    obtain ⟨har, hrest⟩ := List.pairwise_cons.mp hs
    by_cases hmem : a ∈ rest
    · cases rest with
      | nil => cases hmem
      | cons b t =>
        have hab : a ≤ b := har b (List.mem_cons_self _ _)
        have hba : b ≤ a := by
          rcases List.mem_cons.mp hmem with h' | h'
          · omega
          · exact (List.pairwise_cons.mp hrest).1 a h'
        have hz : b - a = 0 := by omega
        show (0 : Nat) ∈ (b - a) :: npDiff (b :: t)
        rw [hz]
        exact List.mem_cons_self _ _
    · have hnd : ¬ rest.Nodup := fun hr => h (List.nodup_cons.mpr ⟨hmem, hr⟩)
      have h0 := ih hrest hnd
      cases rest with
      | nil => exact absurd List.nodup_nil hnd
      | cons b t =>
        show (0 : Nat) ∈ (b - a) :: npDiff (b :: t)
        exact List.mem_cons_of_mem _ h0

theorem observedEntries_of_endYears {files : List Str} {ys : List Nat}
    (hys : observedEndYearsE files = .ok ys) :
    ∃ es, observedEntriesE files = .ok es ∧ ys = es.map (fun e => e.1) := by
  unfold observedEndYearsE at hys
  cases hE : observedEntriesE files with
  | error e => rw [hE] at hys; simp [Except.map] at hys
  | ok es =>
    rw [hE] at hys
    simp [Except.map] at hys
    exact ⟨es, rfl, hys.symm⟩

theorem segmentDurationE_eq_insufficient {files : List Str} {ys : List Nat}
    (hys : observedEndYearsE files = .ok ys) (hlen : ys.length ≤ 1) :
    segmentDurationE files = .error .insufficientSegmentEvidence := by
  unfold segmentDurationE
  rw [hys]
  simp only [bind, Except.bind]
  rw [npDiff_eq_nil (by rw [(sortNat_perm ys).length_eq]; exact hlen)]

theorem segmentDurationE_eq_ok_zero {files : List Str} {ys : List Nat}
    (hys : observedEndYearsE files = .ok ys) (h0 : 0 ∈ npDiff (sortNat ys)) :
    segmentDurationE files = .ok 0 := by
  unfold segmentDurationE
  rw [hys]
  simp only [bind, Except.bind]
  cases hnp : npDiff (sortNat ys) with
  | nil => rw [hnp] at h0; cases h0
  | cons d ds =>
    rw [hnp] at h0
    have h00 : ds.foldl min d = 0 := by
      have hle : minList (d :: ds) ≤ 0 := minList_le_of_mem h0
      simpa [minList] using Nat.le_zero.mp hle
    simp [pure, Except.pure, h00]

theorem create_pp_series_insufficient {files : List Str} {sy ey : Option Nat} {ys : List Nat}
    (hys : observedEndYearsE files = .ok ys) (hlen : ys.length ≤ 1) :
    create_pp_series files sy ey = .error .insufficientSegmentEvidence := by
  obtain ⟨es, hE, hmap⟩ := observedEntries_of_endYears hys
  unfold create_pp_series
  rw [hE]
  simp only [bind, Except.bind]
  rw [segmentDurationE_eq_insufficient hys hlen]

theorem create_pp_series_zeroStep {files : List Str} {sy ey : Option Nat} {ys : List Nat}
    (hys : observedEndYearsE files = .ok ys) (h0 : 0 ∈ npDiff (sortNat ys)) :
    create_pp_series files sy ey = .error .zeroStepArange := by
  obtain ⟨es, hE, hmap⟩ := observedEntries_of_endYears hys
  unfold create_pp_series
  rw [hE]
  simp only [bind, Except.bind]
  rw [segmentDurationE_eq_ok_zero hys h0]
  simp only [Except.bind]
  simp

/-- The C1 scenario directory: observed end-years 2010, 2030 and 2040. -/
def c1Files : List Str :=
  [lit "ocean.20100101-20101231.thetao.nc",
   lit "ocean.20300101-20301231.thetao.nc",
   lit "ocean.20400101-20401231.thetao.nc"]

/-- Claim C1 (amended): when every distinct segment token of a directory has
its own distinct end-year and at least two end-years are observed, the
cadence the code infers (minimum adjacent difference of the sorted observed
end-years) equals the minimum positive difference between any two distinct
observed end-years; in particular for observed end-years 2010, 2030, 2040
the inferred cadence is 10 and the returned series holds the sentinel at the
synthesized year 2020.  (The original claim, quantifying over directories
with merely two distinct end-years, fails when a further duplicated
end-year drives the minimum adjacent difference to zero; see the
counterexample.) -/
theorem c1_cadence_is_min_positive_difference :
    (∀ (files : List Str) (ys : List Nat) (m : Nat),
      observedEndYearsE files = .ok ys → ys.Nodup → 2 ≤ ys.length →
      segmentDurationE files = .ok m →
      specMinPositiveDifference (sortNat ys) = some m) ∧
    segmentDurationE c1Files = .ok 10 ∧
    create_pp_series c1Files none none =
      .ok [(2010, some 1), (2020, none), (2030, some 1), (2040, some 1)] := by
  refine ⟨?_, by decide, by decide⟩
  intro files ys m hys hnd hlen hsd
  unfold segmentDurationE at hsd
  rw [hys] at hsd
  simp only [bind, Except.bind] at hsd
  cases hnp : npDiff (sortNat ys) with
  | nil => simp [hnp] at hsd
  | cons d ds =>
    rw [hnp] at hsd
    have hm : ds.foldl min d = m := by simpa [pure, Except.pure] using hsd
    have hlt := sortNat_pairwise_lt hnd
    have hlen' : 2 ≤ (sortNat ys).length := by
      rw [(sortNat_perm ys).length_eq]; exact hlen
    rw [specMin_eq_minList_npDiff hlt hlen', hnp]
    show some (minList (d :: ds)) = some m
    rw [show minList (d :: ds) = ds.foldl min d from rfl, hm]

/-- Witness for C1: applying the amended cadence characterization to the
concrete directory with end-years 2010, 2030, 2040 gives the specification
cadence 10. -/
theorem c1_cadence_is_min_positive_difference_witness :
    specMinPositiveDifference (sortNat [2010, 2030, 2040]) = some 10 :=
  c1_cadence_is_min_positive_difference.1 c1Files [2010, 2030, 2040] 10
    (by decide) (by decide) (by decide) (by decide)

/-- A directory with two distinct tokens ending in year 2010 plus a third
token ending in 2020: two distinct observed end-years, yet cadence 0. -/
def c1CxFiles : List Str :=
  [lit "ice.20100101-20101231.siconc.nc",
   lit "ice.2010-2010.sithick.nc",
   lit "ice.20200101-20201231.siconc.nc"]

/-- Counterexample to C1 as stated: this directory yields at least two
distinct observed end-years (2010 and 2020) whose minimum positive
difference is 10, yet the code infers cadence 0 (the duplicated end-year
2010 makes the minimum adjacent difference zero) and returns no series at
all. -/
theorem c1_counterexample :
    observedEndYearsE c1CxFiles = .ok [2010, 2010, 2020] ∧
    specMinPositiveDifference (sortNat [2010, 2010, 2020]) = some 10 ∧
    segmentDurationE c1CxFiles = .ok 0 ∧
    create_pp_series c1CxFiles none none = .error .zeroStepArange := by
  exact ⟨by decide, by decide, by decide, by decide⟩

/-- Claim C3 (amended): a directory whose files yield at most one observed
segment token fails with `InsufficientSegmentEvidence` (the empty
`np.diff`); when the single distinct end-year instead arises from two or
more distinct segment tokens, the build still returns no series, but fails
with the zero-step synthesis error rather than
`InsufficientSegmentEvidence`. -/
theorem c3_single_end_year_fails :
    (∀ (files : List Str) (sy ey : Option Nat) (ys : List Nat),
      observedEndYearsE files = .ok ys → ys.length ≤ 1 →
      create_pp_series files sy ey = .error .insufficientSegmentEvidence) ∧
    (∀ (files : List Str) (sy ey : Option Nat) (ys : List Nat) (y : Nat),
      observedEndYearsE files = .ok ys → 2 ≤ ys.length → (∀ z ∈ ys, z = y) →
      create_pp_series files sy ey = .error .zeroStepArange) := by
  constructor
  · intro files sy ey ys hys hlen
    exact create_pp_series_insufficient hys hlen
  · intro files sy ey ys y hys hlen hall
    apply create_pp_series_zeroStep hys
    have hall' : ∀ z ∈ sortNat ys, z = y :=
      fun z hz => hall z ((sortNat_perm ys).mem_iff.mp hz)
    have hlen' : 2 ≤ (sortNat ys).length := by
      rw [(sortNat_perm ys).length_eq]; exact hlen
    cases hs : sortNat ys with
    | nil => rw [hs] at hlen'; simp at hlen'
    | cons a rest =>
      cases rest with
      | nil => rw [hs] at hlen'; simp at hlen'
      | cons b t =>
        have ha : a = y := hall' a (by rw [hs]; exact List.mem_cons_self _ _)
        have hb : b = y := hall' b (by
          rw [hs]; exact List.mem_cons_of_mem _ (List.mem_cons_self _ _))
        show (0 : Nat) ∈ (b - a) :: npDiff (b :: t)
        have hz : b - a = 0 := by omega
        rw [hz]
        exact List.mem_cons_self _ _

/-- A directory with two distinct segment tokens that decode to the same
single end-year 2010. -/
def c3CxFiles : List Str :=
  [lit "ocean.20100101-20101231.thetao.nc",
   lit "ocean.2010-2010.so.nc"]

/-- Counterexample to C3 as stated: this directory yields exactly one
distinct observed end-year (2010, from two distinct tokens), and the build
does fail -- but with the zero-step synthesis error, not with
`InsufficientSegmentEvidence` as the claim asserts. -/
theorem c3_counterexample :
    observedEndYearsE c3CxFiles = .ok [2010, 2010] ∧
    create_pp_series c3CxFiles none none = .error .zeroStepArange ∧
    create_pp_series c3CxFiles none none ≠ .error .insufficientSegmentEvidence := by
  exact ⟨by decide, by decide, by decide⟩

/-- A directory with a single observed segment token. -/
def c3WitnessFiles : List Str := [lit "ocean.20100101-20101231.thetao.nc"]

/-- Witness for C3: the single-token directory fails with
`InsufficientSegmentEvidence`; the duplicated-token directory fails with the
zero-step error. -/
theorem c3_single_end_year_fails_witness :
    create_pp_series c3WitnessFiles none none = .error .insufficientSegmentEvidence ∧
    create_pp_series c3CxFiles none none = .error .zeroStepArange :=
  ⟨c3_single_end_year_fails.1 c3WitnessFiles none none [2010] (by decide) (by decide),
   c3_single_end_year_fails.2 c3CxFiles none none [2010, 2010] 2010 (by decide) (by decide)
     (by decide)⟩

/-- Claim C8: whenever two distinct segment tokens decode to the same
end-year (so the observed end-year list is not duplicate-free), the
minimum observed gap is 0 and `create_pp_series` never returns a series:
it fails with the zero-step synthesis error -- even when two or more
distinct end-years are also present. -/
theorem c8_duplicate_end_year_never_returns (files : List Str) (sy ey : Option Nat)
    (ys : List Nat) (hys : observedEndYearsE files = .ok ys) (hnd : ¬ ys.Nodup) :
    create_pp_series files sy ey = .error .zeroStepArange := by
  apply create_pp_series_zeroStep hys
  exact zero_mem_npDiff_of_not_nodup (sortNat_pairwise_le ys)
    (fun h => hnd (((sortNat_perm ys).nodup_iff).mp h))

/-- A directory with duplicated end-year 2010 (two distinct tokens) and the
further distinct end-year 2020. -/
def c8Files : List Str :=
  [lit "land.20100101-20101231.tas.nc",
   lit "land.2010-2010.pr.nc",
   lit "land.20200101-20201231.tas.nc"]

/-- Witness for C8 at a concrete directory in which two distinct end-years
are present alongside the duplicated one. -/
theorem c8_duplicate_end_year_never_returns_witness :
    create_pp_series c8Files none none = .error .zeroStepArange :=
  c8_duplicate_end_year_never_returns c8Files none none [2010, 2010, 2020]
    (by decide) (by decide)


theorem strFindAux_cons_neg {pat : Str} {c : Char} {rest : Str}
    (h : ¬ pat.isPrefixOf (c :: rest) = true) (i : Nat) :
    strFindAux pat (c :: rest) i = strFindAux pat rest (i + 1) := by
  rw [strFindAux, if_neg h]

theorem strFindAux_shift (pat : Str) (cs : Str) (i : Nat) :
    strFindAux pat cs i = (strFindAux pat cs 0).map (fun j => j + i) := by
  induction cs generalizing i with
  | nil =>
    by_cases h : pat.isPrefixOf []
    · simp [strFindAux, h]
    · simp [strFindAux, h]
  | cons c rest ih =>
    by_cases h : pat.isPrefixOf (c :: rest)
    · simp [strFindAux, h]
    · rw [strFindAux_cons_neg h i, strFindAux_cons_neg h 0, Nat.zero_add,
        ih (i + 1), ih 1, Option.map_map]
      congr 1
      funext j
      simp only [Function.comp]
      omega

theorem strFind_cons (pat : Str) (c : Char) (rest : Str) :
    strFind pat (c :: rest) =
      if pat.isPrefixOf (c :: rest) then some 0
      else (strFind pat rest).map (fun j => j + 1) := by
  unfold strFind
  by_cases h : pat.isPrefixOf (c :: rest)
  · simp [strFindAux, h]
  · rw [if_neg h, strFindAux_cons_neg h 0, Nat.zero_add]
    exact strFindAux_shift pat rest 1

theorem strFind_some (pat cs : Str) (i : Nat) (h : strFind pat cs = some i) :
    pat <+: cs.drop i ∧ ∀ j < i, ¬ pat <+: cs.drop j := by
  induction cs generalizing i with
  | nil =>
    unfold strFind strFindAux at h
    split at h
    · next hp =>
      injection h with h'
      subst h'
      exact ⟨ List.isPrefixOf_iff_prefix.mp hp, fun j hj => absurd hj (by omega)⟩
    · cases h
  | cons c rest ih =>
    rw [strFind_cons] at h
    split at h
    · next hp =>
      injection h with h'
      subst h'
      exact ⟨ List.isPrefixOf_iff_prefix.mp hp, fun j hj => absurd hj (by omega)⟩
    · next hp =>
      cases hr : strFind pat rest with
      | none => rw [hr] at h; cases h
      | some k =>
        rw [hr] at h
        simp at h
        obtain ⟨h1, h2⟩ := ih k hr
        subst h
        refine ⟨by rwa [List.drop_succ_cons], ?_⟩
        intro j hj
        cases j with
        | zero =>
          simp only [List.drop_zero]
          intro hpre
          exact hp ( List.isPrefixOf_iff_prefix.mpr hpre)
        | succ j' =>
          rw [List.drop_succ_cons]
          exact h2 j' (by omega)

theorem strFind_none (pat cs : Str) (h : strFind pat cs = none) :
    ∀ j, ¬ pat <+: cs.drop j := by
  induction cs with
  | nil =>
    unfold strFind strFindAux at h
    split at h
    · cases h
    · next hp =>
      intro j hpre
      rw [List.drop_nil] at hpre
      exact hp ( List.isPrefixOf_iff_prefix.mpr hpre)
  | cons c rest ih =>
    rw [strFind_cons] at h
    split at h
    · cases h
    · next hp =>
      have hr : strFind pat rest = none := by
        cases hr : strFind pat rest with
        | none => rfl
        | some k => rw [hr] at h; cases h
      intro j
      cases j with
      | zero =>
        simp only [List.drop_zero]
        intro hpre
        exact hp ( List.isPrefixOf_iff_prefix.mpr hpre)
      | succ j' =>
        rw [List.drop_succ_cons]
        exact ih hr j'

theorem infix_iff_exists_drop {p d : Str} : p <:+: d ↔ ∃ j, p <+: d.drop j := by
  constructor
  · rintro ⟨s, t, hst⟩
    refine ⟨s.length, t, ?_⟩
    rw [← hst, List.append_assoc, List.drop_left]
  · rintro ⟨j, t, ht⟩
    refine ⟨d.take j, t, ?_⟩
    rw [List.append_assoc, ht, List.take_append_drop]

theorem strContains_iff {p d : Str} : strContains p d = true ↔ p <:+: d := by
  unfold strContains
  cases hf : strFind p d with
  | none =>
    simp only [Option.isSome_none]
    constructor
    · intro h; cases h
    · intro hinf
      obtain ⟨j, hj⟩ := infix_iff_exists_drop.mp hinf
      exact absurd hj (strFind_none p d hf j)
  | some i =>
    simp only [Option.isSome_some]
    exact iff_of_true trivial (infix_iff_exists_drop.mpr ⟨i, (strFind_some p d i hf).1⟩)

/-- `os.path.basename`: the characters after the last slash. -/
def basename (cs : Str) : Str := (cs.reverse.takeWhile (fun c => decide (c ≠ '/'))).reverse

/-- `os.path.dirname`: everything up to the last slash, with trailing
slashes stripped unless the result consists only of slashes. -/
def dirname (cs : Str) : Str :=
  if (cs.take (cs.length - (cs.reverse.takeWhile (fun c => decide (c ≠ '/'))).length)).all
      (fun c => decide (c = '/')) then
    cs.take (cs.length - (cs.reverse.takeWhile (fun c => decide (c ≠ '/'))).length)
  else
    ((cs.take (cs.length -
      (cs.reverse.takeWhile (fun c => decide (c ≠ '/'))).length)).reverse.dropWhile
        (fun c => decide (c = '/'))).reverse

/-- The distinct directories containing the matched files
(pp_funcs.py line 88). -/
def allDirsOf (allFiles : List Str) : List Str := dedupStr (allFiles.map dirname)

/-- The period label of one directory (pp_funcs.py lines 90-93): for the
averages kind, the last underscore-separated token of the directory's base
name (an `IndexError` when there is none); otherwise the base name itself. -/
def periodOfDir (ftype : Str) (d : Str) : Except PpError Str :=
  if ftype = lit "av" then liftIdx (wordsBy '_' (basename d)).getLast?
  else .ok (basename d)

/-- Model of `all_dirs_model` (pp_funcs.py lines 74-101) downstream of the
recursive glob: from the list of matched file paths, derive the distinct
containing directories and their period labels, and build the dictionary
sending each period to the directories whose full path contains it as a
substring (`d.find(p) != -1`). -/
def all_dirs_model (allFiles : List Str) (ftype : Str) :
    Except PpError (List (Str × List Str)) := do
  let rawPeriods ← (allDirsOf allFiles).mapM (periodOfDir ftype)
  pure ((dedupStr rawPeriods).map
    (fun p => (p, (allDirsOf allFiles).filter (fun d => strContains p d))))

/-- The C9 scenario: two time-series files whose directories carry the
period labels `5yr` and `15yr`. -/
def c9Files : List Str :=
  [lit "/pp/ocean/ts/5yr/a.nc", lit "/pp/ocean_x/ts/15yr/b.nc"]

/-- Claim C9: in the mapping returned by `all_dirs_model`, a discovered
directory appears in the bucket of a period label exactly when that label
occurs as a substring anywhere in the directory's full path; consequently
the buckets need not partition the directories: concretely, with labels
`5yr` and `15yr` discovered, the `15yr` directory also appears in the
`5yr` bucket. -/
theorem c9_buckets_by_substring :
    (∀ (allFiles : List Str) (ftype : Str) (m : List (Str × List Str)),
      all_dirs_model allFiles ftype = .ok m →
      ∀ p bucket, (p, bucket) ∈ m →
      ∀ d ∈ allDirsOf allFiles, (d ∈ bucket ↔ p <:+: d)) ∧
    all_dirs_model c9Files (lit "ts") =
      .ok [(lit "5yr", [lit "/pp/ocean/ts/5yr", lit "/pp/ocean_x/ts/15yr"]),
           (lit "15yr", [lit "/pp/ocean_x/ts/15yr"])] := by
  refine ⟨?_, by decide⟩
  intro allFiles ftype m hm p bucket hpb d hd
  unfold all_dirs_model at hm
  cases hraw : (allDirsOf allFiles).mapM (periodOfDir ftype) with
  | error e => rw [hraw] at hm; simp only [bind, Except.bind] at hm; cases hm
  | ok rp =>
    rw [hraw] at hm
    simp only [bind, Except.bind] at hm
    have hm' : (dedupStr rp).map (fun q => (q, (allDirsOf allFiles).filter
        (fun d' => strContains q d'))) = m := by
      simpa [pure, Except.pure] using hm
    rw [← hm'] at hpb
    obtain ⟨p', hp', heq⟩ := List.mem_map.mp hpb
    have hpp : p' = p := congrArg Prod.fst heq
    have hbb : (allDirsOf allFiles).filter
        (fun d' => strContains p' d') = bucket := congrArg Prod.snd heq
    subst hpp
    rw [← hbb]
    constructor
    · intro hdb
      exact strContains_iff.mp (List.of_mem_filter hdb)
    · intro hinf
      exact List.mem_filter.mpr ⟨hd, strContains_iff.mpr hinf⟩

/-- Witness for C9: the `15yr` directory is in the `5yr` bucket because
`5yr` occurs inside `15yr`. -/
theorem c9_buckets_by_substring_witness :
    (lit "/pp/ocean_x/ts/15yr") ∈ [lit "/pp/ocean/ts/5yr", lit "/pp/ocean_x/ts/15yr"] ↔
      (lit "5yr") <:+: (lit "/pp/ocean_x/ts/15yr") :=
  c9_buckets_by_substring.1 c9Files (lit "ts")
    [(lit "5yr", [lit "/pp/ocean/ts/5yr", lit "/pp/ocean_x/ts/15yr"]),
     (lit "15yr", [lit "/pp/ocean_x/ts/15yr"])]
    c9_buckets_by_substring.2
    (lit "5yr") [lit "/pp/ocean/ts/5yr", lit "/pp/ocean_x/ts/15yr"]
    (by decide) (lit "/pp/ocean_x/ts/15yr") (by decide)

/-- The directory-labeling step of `pp_to_dataframe` (pp_funcs.py lines
119-124): the label of a directory is its path from the first occurrence of
the substring `pp` onward (`subdir[subdir.find("pp"):]`); a path with no
`pp` substring raises the `ValueError` the design document calls
`NotAPpDirectory`. -/
def ppLabel (subdir : Str) : Except PpError Str :=
  match strFind (lit "pp") subdir with
  | none => .error .notAPpDirectory
  | some i => .ok (subdir.drop i)

/-- Claim C10: the inventory assembler labels a directory by the suffix of
its path starting at the first occurrence of the substring `pp` anywhere in
the path -- not necessarily at a path component named `pp` -- and raises the
not-a-pp-directory error exactly when the path contains no `pp` substring
at all.  The concrete conjunct shows a label cut inside the component
`supper`. -/
theorem c10_label_suffix_at_first_pp :
    (∀ d : Str, ppLabel d = .error .notAPpDirectory ↔ ¬ (lit "pp") <:+: d) ∧
    (∀ d l : Str, ppLabel d = .ok l →
      ∃ i, l = d.drop i ∧ (lit "pp") <+: l ∧ ∀ j < i, ¬ (lit "pp") <+: d.drop j) ∧
    ppLabel (lit "/archive/supper/ocean") = .ok (lit "pper/ocean") := by
  refine ⟨?_, ?_, by decide⟩
  · intro d
    unfold ppLabel
    cases hf : strFind (lit "pp") d with
    | none =>
      refine iff_of_true rfl ?_
      intro hinf
      obtain ⟨j, hj⟩ := infix_iff_exists_drop.mp hinf
      exact absurd hj (strFind_none _ d hf j)
    | some i =>
      refine iff_of_false (fun h => Except.noConfusion h) ?_
      intro hninf
      exact hninf (infix_iff_exists_drop.mpr ⟨i, (strFind_some _ d i hf).1⟩)
  · intro d l hl
    unfold ppLabel at hl
    cases hf : strFind (lit "pp") d with
    | none => rw [hf] at hl; cases hl
    | some i =>
      rw [hf] at hl
      injection hl with hl'
      obtain ⟨h1, h2⟩ := strFind_some _ d i hf
      exact ⟨i, hl'.symm, hl' ▸ h1, h2⟩

/-- Witness for C10: a path without any `pp` substring errors, and the label
of the concrete path cuts inside `supper` at the first `pp` occurrence. -/
theorem c10_label_suffix_at_first_pp_witness :
    (ppLabel (lit "/archive/ocean") = .error .notAPpDirectory ↔
      ¬ (lit "pp") <:+: (lit "/archive/ocean")) ∧
    (∃ i, (lit "pper/ocean") = (lit "/archive/supper/ocean").drop i ∧
      (lit "pp") <+: (lit "pper/ocean") ∧
      ∀ j < i, ¬ (lit "pp") <+: (lit "/archive/supper/ocean").drop j) :=
  ⟨c10_label_suffix_at_first_pp.1 (lit "/archive/ocean"),
   c10_label_suffix_at_first_pp.2.1 (lit "/archive/supper/ocean") (lit "pper/ocean")
     c10_label_suffix_at_first_pp.2.2⟩

/-- Ascending positions of the occurrences of character `c`, modelling
`[_.start() for _ in re.finditer("-", s)]`. -/
def findIdxs (c : Char) : Str → List Nat
  | [] => []
  | x :: xs =>
    if x = c then 0 :: (findIdxs c xs).map (fun i => i + 1)
    else (findIdxs c xs).map (fun i => i + 1)

/-- Lift an optional indexing result inside `infer_properties_from_ppdir`,
modelling the Python `IndexError` that the design document calls
`MalformedPpPath`. -/
def liftMal {α : Type} : Option α → Except PpError α
  | some a => .ok a
  | none => .error .malformedPpPath

/-- The non-empty slash-separated components of a path
(`ppdir.replace("/", " ").split()`). -/
def pathParts (ppdir : Str) : List Str := wordsBy '/' ppdir

/-- The experiment identity derived from the post-processing root path. -/
structure FreppProps where
  runname : Str
  platform : Str
  runtype : Str
  deriving DecidableEq, Repr

/-- Model of `infer_properties_from_ppdir` (pp_funcs.py lines 199-216):
component index 4 of the path is `platform-runtype`, split at its second
hyphen; component index 3 is the run name.  The source lines run in this
order, so a missing 5th component fails before the hyphen search. -/
def infer_properties_from_ppdir (ppdir : Str) : Except PpError FreppProps := do
  let platformRuntype ← liftMal (pathParts ppdir)[4]?
  let cut ← liftMal (findIdxs '-' platformRuntype)[1]?
  let runname ← liftMal (pathParts ppdir)[3]?
  pure ⟨runname, platformRuntype.take cut, platformRuntype.drop (cut + 1)⟩

theorem findIdxs_head {c : Char} {cs : Str} {i : Nat} {rest : List Nat}
    (h : findIdxs c cs = i :: rest) :
    (cs.take i).count c = 0 ∧ cs.take i ++ c :: cs.drop (i + 1) = cs := by
  induction cs generalizing i rest with
  | nil => cases h
  | cons x xs ih =>
    by_cases hx : x = c
    · rw [findIdxs, if_pos hx] at h
      injection h with h1 h2
      subst h1
      subst hx
      exact ⟨by simp, by simp⟩
    · rw [findIdxs, if_neg hx] at h
      cases hf : findIdxs c xs with
      | nil => rw [hf] at h; cases h
      | cons j js =>
        rw [hf] at h
        simp only [List.map_cons] at h
        injection h with h1 h2
        subst h1
        obtain ⟨hc1, hc2⟩ := ih hf
        constructor
        · rw [List.take_succ_cons, List.count_cons]
          simp [hx, hc1]
        · rw [List.take_succ_cons, List.drop_succ_cons]
          show x :: (xs.take j ++ c :: xs.drop (j + 1)) = x :: xs
          exact congrArg (x :: ·) hc2

theorem findIdxs_second {c : Char} {cs : Str} {i0 i1 : Nat} {rest : List Nat}
    (h : findIdxs c cs = i0 :: i1 :: rest) :
    (cs.take i1).count c = 1 ∧ cs.take i1 ++ c :: cs.drop (i1 + 1) = cs := by
  induction cs generalizing i0 i1 rest with
  | nil => cases h
  | cons x xs ih =>
    by_cases hx : x = c
    · rw [findIdxs, if_pos hx] at h
      injection h with h1 h2
      cases hf : findIdxs c xs with
      | nil => rw [hf] at h2; cases h2
      | cons j js =>
        rw [hf] at h2
        simp only [List.map_cons] at h2
        injection h2 with h21 h22
        subst h21
        obtain ⟨hc1, hc2⟩ := findIdxs_head hf
        subst hx
        constructor
        · rw [List.take_succ_cons, List.count_cons]
          simp [hc1]
        · rw [List.take_succ_cons, List.drop_succ_cons]
          show x :: (xs.take j ++ x :: xs.drop (j + 1)) = x :: xs
          exact congrArg (x :: ·) hc2
    · rw [findIdxs, if_neg hx] at h
      cases hf : findIdxs c xs with
      | nil => rw [hf] at h; cases h
      | cons j js =>
        rw [hf] at h
        cases js with
        | nil =>
          simp only [List.map_cons, List.map_nil] at h
          injection h with h1 h2
          cases h2
        | cons j1 js' =>
          simp only [List.map_cons] at h
          injection h with h1 h2
          injection h2 with h21 h22
          subst h21
          obtain ⟨hc1, hc2⟩ := ih hf
          constructor
          · rw [List.take_succ_cons, List.count_cons]
            simp [hx, hc1]
          · rw [List.take_succ_cons, List.drop_succ_cons]
            show x :: (xs.take j1 ++ c :: xs.drop (j1 + 1)) = x :: xs
            exact congrArg (x :: ·) hc2

/-- Claim C4 (amended): for a root path with at least 5 non-empty
slash-separated components whose 5th component has at least two hyphens,
`infer_properties_from_ppdir` returns the 4th component as the run name and
splits the 5th component at its second hyphen into platform (text before,
containing exactly one hyphen) and run type (text after); a path with fewer
than 5 components, or whose 5th component lacks a second hyphen, fails with
`MalformedPpPath`.  (The original claim's example path
`/archive/run1/gfdl-cm4/c96-prod-ESM4/pp` in fact has `pp` as its 5th
component and so fails; see the counterexample.) -/
theorem c4_metadata_from_path_components :
    (∀ (ppdir pr : Str), (pathParts ppdir)[4]? = some pr →
      2 ≤ (findIdxs '-' pr).length →
      ∃ r, infer_properties_from_ppdir ppdir = .ok r ∧
        (pathParts ppdir)[3]? = some r.runname ∧
        r.platform ++ '-' :: r.runtype = pr ∧
        r.platform.count '-' = 1) ∧
    (∀ ppdir : Str, (pathParts ppdir).length < 5 →
      infer_properties_from_ppdir ppdir = .error .malformedPpPath) ∧
    (∀ (ppdir pr : Str), (pathParts ppdir)[4]? = some pr →
      (findIdxs '-' pr).length < 2 →
      infer_properties_from_ppdir ppdir = .error .malformedPpPath) := by
  refine ⟨?_, ?_, ?_⟩
  · intro ppdir pr h4 hlen
    obtain ⟨i0, cut, rest, hf⟩ : ∃ i0 cut rest, findIdxs '-' pr = i0 :: cut :: rest := by
      cases hf : findIdxs '-' pr with
      | nil => rw [hf] at hlen; simp at hlen
      | cons a t =>
        cases t with
        | nil => rw [hf] at hlen; simp at hlen
        | cons b t' => exact ⟨a, b, t', rfl⟩
    have hl5 : 5 ≤ (pathParts ppdir).length := by
      by_contra hc
      push_neg at hc
      rw [List.getElem?_eq_none (by omega)] at h4
      cases h4
    obtain ⟨rn, h3⟩ : ∃ rn, (pathParts ppdir)[3]? = some rn :=
      ⟨_, List.getElem?_eq_getElem (by omega)⟩
    obtain ⟨hcount, hdecomp⟩ := findIdxs_second hf
    refine ⟨⟨rn, pr.take cut, pr.drop (cut + 1)⟩, ?_, h3, hdecomp, hcount⟩
    unfold infer_properties_from_ppdir
    rw [h4]
    simp only [liftMal, bind, Except.bind]
    rw [hf]
    have hidx : (i0 :: cut :: rest)[1]? = some cut := by simp
    rw [hidx]
    simp only [liftMal, Except.bind]
    rw [h3]
    simp only [liftMal, Except.bind]
    rfl
  · intro ppdir hlen
    unfold infer_properties_from_ppdir
    rw [List.getElem?_eq_none (by omega)]
    simp only [liftMal, bind, Except.bind]
  · intro ppdir pr h4 hlen
    unfold infer_properties_from_ppdir
    rw [h4]
    simp only [liftMal, bind, Except.bind]
    rw [List.getElem?_eq_none (by omega)]

/-- Counterexample to C4's example: on
`/archive/run1/gfdl-cm4/c96-prod-ESM4/pp` the 5th non-empty component is
`pp`, which has no hyphen, so the function fails with `MalformedPpPath`
instead of yielding runName `run1`. -/
theorem c4_counterexample :
    infer_properties_from_ppdir (lit "/archive/run1/gfdl-cm4/c96-prod-ESM4/pp") =
      .error .malformedPpPath := by decide

/-- Witness for C4 on a path whose 5th component really is
`platform-runType` with two hyphens: the run name is the 4th component and
the 5th splits at its second hyphen. -/
theorem c4_metadata_from_path_components_witness :
    infer_properties_from_ppdir (lit "/archive/usr/proj/run1/c96-prod-ESM4/pp") =
      .ok ⟨lit "run1", lit "c96-prod", lit "ESM4"⟩ ∧
    (∃ r, infer_properties_from_ppdir (lit "/archive/usr/proj/run1/c96-prod-ESM4/pp") =
        .ok r ∧
      (pathParts (lit "/archive/usr/proj/run1/c96-prod-ESM4/pp"))[3]? = some r.runname ∧
      r.platform ++ '-' :: r.runtype = lit "c96-prod-ESM4" ∧
      r.platform.count '-' = 1) ∧
    infer_properties_from_ppdir (lit "/archive/xy/pp") = .error .malformedPpPath ∧
    infer_properties_from_ppdir (lit "/archive/usr/proj/run1/c96prodESM4/pp") =
      .error .malformedPpPath :=
  ⟨by decide,
   c4_metadata_from_path_components.1 (lit "/archive/usr/proj/run1/c96-prod-ESM4/pp")
     (lit "c96-prod-ESM4") (by decide) (by decide),
   c4_metadata_from_path_components.2.1 (lit "/archive/xy/pp") (by decide),
   c4_metadata_from_path_components.2.2 (lit "/archive/usr/proj/run1/c96prodESM4/pp")
     (lit "c96prodESM4") (by decide) (by decide)⟩

/-- Little-endian decimal digits of `n`, with an explicit fuel argument
(`fuel` at least `n` suffices). -/
def natDigitsRev : Nat → Nat → List Nat
  | 0, _ => []
  | _ + 1, 0 => []
  | fuel + 1, n + 1 => ((n + 1) % 10) :: natDigitsRev fuel ((n + 1) / 10)

/-- Python `str` of a non-negative integer. -/
def pyStrNat (n : Nat) : Str :=
  if n = 0 then lit "0" else ((natDigitsRev n n).reverse).map digitToChar

/-- Python `str.zfill`: left-pad with `'0'` to width `w`. -/
def zfill (w : Nat) (cs : Str) : Str := List.replicate (w - cs.length) '0' ++ cs

/-- The immutable experiment parameters assembled by `pp_verif`
(pp_funcs.py lines 166-169). -/
structure FreppDict where
  runname : Str
  platform : Str
  runtype : Str
  xmlpath : Str
  freversion : Str
  deriving DecidableEq, Repr

/-- Model of `run_frepp_command`'s command construction (pp_funcs.py lines
240-256): the shell command text built from the component, the
zero-padded year and the experiment parameters.  (The subsequent
`subprocess.check_call` is the external invocation; only the constructed
command is modelled.) -/
def run_frepp_command (comp : Str) (year : Nat) (d : FreppDict) : Str :=
  lit "module load fre/" ++ d.freversion ++ lit " ; frepp -t " ++
    zfill 4 (pyStrNat year) ++ lit "0101 -R -Y " ++ zfill 4 (pyStrNat year) ++
    lit " -Z " ++ zfill 4 (pyStrNat year) ++ lit " -s -x " ++ d.xmlpath ++
    lit " -P " ++ d.platform ++ lit " -T " ++ d.runtype ++ lit " -c " ++ comp ++
    lit " " ++ d.runname

theorem digitsValN_shift (xs : List Nat) (a : Nat) :
    xs.foldl (fun acc d => acc * 10 + d) a = a * 10 ^ xs.length + digitsValN xs := by
  induction xs generalizing a with
  | nil => simp [digitsValN]
  | cons x xs ih =>
    show xs.foldl _ (a * 10 + x) = a * 10 ^ (x :: xs).length + digitsValN (x :: xs)
    have hx : digitsValN (x :: xs) = x * 10 ^ xs.length + digitsValN xs := by
      show xs.foldl _ (0 * 10 + x) = _
      rw [ih (0 * 10 + x)]
      ring
    rw [ih (a * 10 + x), hx, List.length_cons, pow_succ]
    ring

theorem digitsValN_replicate_zero (k : Nat) (ds : List Nat) :
    digitsValN (List.replicate k 0 ++ ds) = digitsValN ds := by
  induction k with
  | zero => rfl
  | succ k ih =>
    rw [List.replicate_succ, List.cons_append]
    show digitsValN (List.replicate k 0 ++ ds) = digitsValN ds
    exact ih

theorem charVal_digitToChar {d : Nat} (h : d < 10) : charVal (digitToChar d) = d := by
  interval_cases d <;> decide

theorem map_charVal_digitToChar (ds : List Nat) (h : ∀ d ∈ ds, d < 10) :
    (ds.map digitToChar).map charVal = ds := by
  induction ds with
  | nil => rfl
  | cons d rest ih =>
    simp only [List.map_cons]
    rw [charVal_digitToChar (h d (by simp)), ih (fun x hx => h x (by simp [hx]))]

theorem digitsValN_natDigitsRev (fuel n : Nat) (h : n ≤ fuel) :
    digitsValN (natDigitsRev fuel n).reverse = n := by
  induction fuel generalizing n with
  | zero =>
    have : n = 0 := by omega
    subst this
    rfl
  | succ f ih =>
    cases n with
    | zero => rfl
    | succ n' =>
      rw [natDigitsRev, List.reverse_cons, digitsValN_append_singleton]
      have hrec : (n' + 1) / 10 ≤ f := by omega
      rw [ih _ hrec]
      omega

theorem natDigitsRev_lt_ten (fuel n : Nat) : ∀ d ∈ natDigitsRev fuel n, d < 10 := by
  induction fuel generalizing n with
  | zero => intro d hd; simp [natDigitsRev] at hd
  | succ f ih =>
    cases n with
    | zero => intro d hd; simp [natDigitsRev] at hd
    | succ n' =>
      intro d hd
      rw [natDigitsRev] at hd
      rcases List.mem_cons.mp hd with h | h
      · omega
      · exact ih _ d h

theorem natDigitsRev_length_le (fuel n k : Nat) (h : n < 10 ^ k) :
    (natDigitsRev fuel n).length ≤ k := by
  induction fuel generalizing n k with
  | zero => simp [natDigitsRev]
  | succ f ih =>
    cases n with
    | zero => simp [natDigitsRev]
    | succ n' =>
      cases k with
      | zero => simp at h
      | succ k' =>
        rw [natDigitsRev]
        simp only [List.length_cons]
        have hdiv : (n' + 1) / 10 < 10 ^ k' := by
          have h10 : (10 : Nat) ^ (k' + 1) = 10 ^ k' * 10 := pow_succ 10 k'
          omega
        exact Nat.succ_le_succ (ih _ _ hdiv)

theorem digitsVal_pyStrNat (n : Nat) : digitsVal (pyStrNat n) = n := by
  unfold pyStrNat
  by_cases h : n = 0
  · subst h; decide
  · rw [if_neg h]
    unfold digitsVal
    rw [map_charVal_digitToChar _
      (fun d hd => natDigitsRev_lt_ten n n d (List.mem_reverse.mp hd))]
    exact digitsValN_natDigitsRev n n le_rfl

theorem pyStrNat_digits (n : Nat) : ∀ c ∈ pyStrNat n, charVal c < 10 := by
  intro c hc
  unfold pyStrNat at hc
  by_cases h : n = 0
  · rw [if_pos h] at hc
    have : c = '0' := by simpa [lit] using hc
    subst this
    decide
  · rw [if_neg h] at hc
    obtain ⟨d, hd, hdc⟩ := List.mem_map.mp hc
    rw [← hdc, charVal_digitToChar (natDigitsRev_lt_ten n n d (List.mem_reverse.mp hd))]
    exact natDigitsRev_lt_ten n n d (List.mem_reverse.mp hd)

theorem pyStrNat_length_le (n k : Nat) (hk : 1 ≤ k) (h : n < 10 ^ k) :
    (pyStrNat n).length ≤ k := by
  unfold pyStrNat
  by_cases h0 : n = 0
  · rw [if_pos h0]
    simpa [lit] using hk
  · rw [if_neg h0]
    rw [List.length_map, List.length_reverse]
    exact natDigitsRev_length_le n n k h

theorem digitsVal_zfill (w : Nat) (cs : Str) : digitsVal (zfill w cs) = digitsVal cs := by
  unfold zfill digitsVal
  rw [List.map_append]
  have hz : (List.replicate (w - cs.length) '0').map charVal =
      List.replicate (w - cs.length) 0 := by
    rw [List.map_replicate]
    rfl
  rw [hz]
  exact digitsValN_replicate_zero _ _

theorem zfill_digits (w : Nat) (cs : Str) (h : ∀ c ∈ cs, charVal c < 10) :
    ∀ c ∈ zfill w cs, charVal c < 10 := by
  intro c hc
  unfold zfill at hc
  rcases List.mem_append.mp hc with h' | h'
  · have : c = '0' := List.eq_of_mem_replicate h'
    subst this
    decide
  · exact h c h'

theorem zfill_length (w : Nat) (cs : Str) : (zfill w cs).length = max w cs.length := by
  unfold zfill
  rw [List.length_append, List.length_replicate]
  omega

/-- Claim C5: the command built by `run_frepp_command` carries the target
date as the zero-padded 4-digit year followed by `0101`, the identical
zero-padded year as both start (`-Y`) and end (`-Z`) year, the regenerate
(`-R`) and stop-after (`-s`) flags, and the xml path, platform, run type,
component and run name verbatim from the metadata and call arguments.  The
padded year `zfill 4 (pyStrNat year)` is an all-digit string whose numeric
value is exactly `year` and whose length is 4 whenever `year` is at most
9999. -/
theorem c5_frepp_command_fields (comp : Str) (year : Nat) (d : FreppDict) :
    run_frepp_command comp year d =
      lit "module load fre/" ++ d.freversion ++ lit " ; frepp -t " ++
        zfill 4 (pyStrNat year) ++ lit "0101 -R -Y " ++ zfill 4 (pyStrNat year) ++
        lit " -Z " ++ zfill 4 (pyStrNat year) ++ lit " -s -x " ++ d.xmlpath ++
        lit " -P " ++ d.platform ++ lit " -T " ++ d.runtype ++ lit " -c " ++ comp ++
        lit " " ++ d.runname ∧
    digitsVal (zfill 4 (pyStrNat year)) = year ∧
    (∀ c ∈ zfill 4 (pyStrNat year), charVal c < 10) ∧
    4 ≤ (zfill 4 (pyStrNat year)).length ∧
    (year < 10000 → (zfill 4 (pyStrNat year)).length = 4) := by
  refine ⟨rfl, ?_, zfill_digits 4 _ (pyStrNat_digits year), ?_, ?_⟩
  · rw [digitsVal_zfill]
    exact digitsVal_pyStrNat year
  · rw [zfill_length]
    omega
  · intro hy
    rw [zfill_length]
    have : (pyStrNat year).length ≤ 4 := pyStrNat_length_le year 4 (by omega) (by norm_num; omega)
    omega

/-- Witness for C5 at year 1999 and concrete metadata: the target date is
`19990101` and the start and end years are both `1999`. -/
theorem c5_frepp_command_fields_witness :
    digitsVal (zfill 4 (pyStrNat 1999)) = 1999 ∧
    (zfill 4 (pyStrNat 1999)).length = 4 ∧
    run_frepp_command (lit "ocean") 1999
        ⟨lit "run1", lit "gfdl.ncrc4-intel", lit "prod", lit "/x.xml", lit "bronx-19"⟩ =
      lit ("module load fre/bronx-19 ; frepp -t 19990101 -R -Y 1999 -Z 1999 -s" ++
        " -x /x.xml -P gfdl.ncrc4-intel -T prod -c ocean run1") :=
  ⟨(c5_frepp_command_fields (lit "ocean") 1999
      ⟨lit "run1", lit "gfdl.ncrc4-intel", lit "prod", lit "/x.xml", lit "bronx-19"⟩).2.1,
   (c5_frepp_command_fields (lit "ocean") 1999
      ⟨lit "run1", lit "gfdl.ncrc4-intel", lit "prod", lit "/x.xml", lit "bronx-19"⟩).2.2.2.2
     (by norm_num),
   by decide⟩
